import Mathlib

/-!
Shallow embedding of the index-engine repository (statestore.py, rule.py,
schedule.py, marketdata.py, runner.py) and verification of its
specification's claims.

Modelling conventions:
* a calendar date is encoded as a natural number in year-month-day positional
  form (e.g. 20230131), so the usual order on Nat is the date order and the
  month of a date is recovered as d / 100 % 100 (mirroring Timestamp.month
  up to the year, exactly as the positional encoding gives it);
* prices (Python floats) are modelled as rationals; the claims under study
  never depend on floating-point rounding;
* Python dicts keyed by date are modelled as functions Nat -> Option _,
  Python sets of dates as lists (only membership is ever consumed);
* raising an exception is modelled with Except; since a raised Python
  exception propagates while leaving already-performed store mutations in
  place, the chain-computation engine returns a pair
  (Except Err State) x Sys so that the post-state is visible on failure too;
* the sequential (single-caller) semantics is modelled: the public locked
  wrappers (StateStore.get / compute_state with a lock manager) execute the
  same unlocked bodies, which are what is embedded here.
-/

namespace IndexEngine

abbrev Ticker := String

/-- Errors raised by the embedded code: ScheduleError (schedule.py) and
MarketDataError (marketdata.py). ScheduleError plays the role the spec calls
RangeError. -/
inductive Err where
  | scheduleError
  | marketDataError
deriving DecidableEq, Repr

/-- Month component of a positionally encoded date, mirroring
target_date.month for dates encoded as ymd numerals. -/
def monthOf (d : Nat) : Nat := d / 100 % 100

/-- Schedule.prev: the greatest schedule date strictly before d
(schedule.py lines 23-42); none models the raised ScheduleError. -/
def schedPrev (cal : List Nat) (d : Nat) : Option Nat :=
  (cal.filter (fun x => decide (x < d))).max?

/-- Schedule.next: the least schedule date strictly after d
(schedule.py lines 44-63); none models the raised ScheduleError. -/
def schedNext (cal : List Nat) (d : Nat) : Option Nat :=
  (cal.filter (fun x => decide (d < x))).min?

/-- Schedule.sub_schedule: the dates within [a, b], inclusive
(schedule.py lines 65-84). -/
def subSchedule (cal : List Nat) (a b : Nat) : List Nat :=
  cal.filter (fun x => decide (a ≤ x) && decide (x ≤ b))

/-- Schedule.is_last_day_of_month (schedule.py lines 86-99): asks for the
next schedule date (raising ScheduleError when there is none) and compares
months. -/
def isLastDayOfMonth (cal : List Nat) (d : Nat) : Except Err Bool :=
  match schedNext cal d with
  | none => .error .scheduleError
  | some n => .ok (decide (monthOf d ≠ monthOf n))

/-- MarketData: the price table (date, ticker) -> close together with the
registry of updated dates (marketdata.py). The update-callback list is not
carried: the only registered callback is the store's invalidate, which the
system-level update below performs directly. -/
structure MarketData where
  prices : Nat → Ticker → Option ℚ
  updatedDates : List Nat

/-- MarketData.get (marketdata.py lines 58-78): point read, raising
MarketDataError when the (date, ticker) pair is absent. -/
def MarketData.get (md : MarketData) (d : Nat) (t : Ticker) : Except Err ℚ :=
  match md.prices d t with
  | some p => .ok p
  | none => .error .marketDataError

/-- EqualWeightStrategyState (rule.py lines 13-27): per-asset returns,
portfolio return, index level, per-asset weights. Asset-keyed dicts are
association lists built over the basket. -/
structure EqualWeightStrategyState where
  returns : List (Ticker × ℚ)
  portfolio_return : ℚ
  index_level : ℚ
  weights : List (Ticker × ℚ)

/-- StateStore (statestore.py): the result cache and the recorded
dependency sets, each keyed by date. -/
structure StateStore (σ : Type) where
  cache : Nat → Option σ
  deps : Nat → Option (List (Nat × Ticker))

/-- StateStore._is_valid (statestore.py lines 142-165): false when no
dependency record exists; otherwise true iff no dependency date is in the
updated-dates registry. -/
def StateStore.is_valid (st : StateStore σ) (updated : List Nat) (d : Nat) : Bool :=
  match st.deps d with
  | none => false
  | some ds => !(ds.any (fun a => updated.contains a.1))

/-- Eviction of one date from both maps, mirroring the del statements of
statestore.py lines 75-77. -/
def StateStore.erase (st : StateStore σ) (d : Nat) : StateStore σ :=
  { cache := fun k => if k = d then none else st.cache k,
    deps := fun k => if k = d then none else st.deps k }

/-- StateStore._get_unsafe (statestore.py lines 64-78), the body run under
the appropriate lock by StateStore.get: return a present valid entry; evict
(both maps) a present invalid entry and return none; otherwise none. -/
def StateStore.get (st : StateStore σ) (updated : List Nat) (d : Nat) :
    Option σ × StateStore σ :=
  match st.cache d with
  | some s =>
    if st.is_valid updated d then (some s, st)
    else (none, st.erase d)
  | none => (none, st)

/-- StateStore._put_unsafe (statestore.py lines 99-105): store the state and
an independent copy of the dependency set, overwriting any prior entry. -/
def StateStore.put (st : StateStore σ) (d : Nat) (s : σ)
    (ds : List (Nat × Ticker)) : StateStore σ :=
  { cache := fun k => if k = d then some s else st.cache k,
    deps := fun k => if k = d then some ds else st.deps k }

/-- StateStore._invalidate_unsafe (statestore.py lines 127-140): delete every
cached entry at a date >= the invalidated date; the dependency record is
deleted exactly for those dates that were present in the cache. -/
def StateStore.invalidate (st : StateStore σ) (d : Nat) : StateStore σ :=
  { cache := fun k => if d ≤ k then none else st.cache k,
    deps := fun k => if d ≤ k ∧ (st.cache k).isSome then none else st.deps k }

/-- StateStore.clear (statestore.py lines 167-175). -/
def StateStore.clearAll (_st : StateStore σ) : StateStore σ :=
  { cache := fun _ => none, deps := fun _ => none }

/-- Well-formedness maintained by every StateStore operation: a date with no
cached result has no dependency record either (put fills both, eviction and
clearing empty both). -/
def StateStore.WF (st : StateStore σ) : Prop :=
  ∀ j, st.cache j = none → st.deps j = none

/-- EqualWeightStrategy configuration (rule.py lines 29-48). -/
structure EqualWeightStrategy where
  basket : List Ticker
  seed_date : Nat
  calendar : List Nat
  initial_index_level : ℚ

/-- The whole mutable system: market data plus the strategy's state store. -/
structure Sys where
  md : MarketData
  store : StateStore EqualWeightStrategyState

/-- The equal-weight dict comprehension 1/len(basket) per basket asset
(rule.py lines 143 and 183). -/
def equalWeights (cfg : EqualWeightStrategy) : List (Ticker × ℚ) :=
  cfg.basket.map (fun a => (a, 1 / (cfg.basket.length : ℚ)))

/-- The seed-date state (rule.py lines 137-144): zero returns, zero
portfolio return, the configured initial index level, equal weights. -/
def seedState (cfg : EqualWeightStrategy) : EqualWeightStrategyState :=
  { returns := cfg.basket.map (fun a => (a, 0)),
    portfolio_return := 0,
    index_level := cfg.initial_index_level,
    weights := equalWeights cfg }

/-- Dict indexing returns[asset] / weights[asset]; in every reachable state
the keys of these dicts equal the basket, so the default branch is dead. -/
def dlookup (l : List (Ticker × ℚ)) (a : Ticker) : ℚ :=
  match l.find? (fun q => q.1 == a) with
  | some q => q.2
  | none => 0

/-- The returns loop of rule.py lines 167-174: for each basket asset read
the close at d and at p and form today/yesterday - 1; the first failing read
aborts (MarketDataError). -/
def computeReturns (md : MarketData) (d p : Nat) :
    List Ticker → Except Err (List (Ticker × ℚ))
  | [] => .ok []
  | a :: rest =>
    match md.get d a with
    | .error e => .error e
    | .ok x =>
      match md.get p a with
      | .error e => .error e
      | .ok y =>
        match computeReturns md d p rest with
        | .error e => .error e
        | .ok rs => .ok ((a, x / y - 1) :: rs)

/-- The dependency set recorded by the same loop: (d, a) and (p, a) for each
basket asset a. -/
def mkDeps (d p : Nat) : List Ticker → List (Nat × Ticker)
  | [] => []
  | a :: rest => (d, a) :: (p, a) :: mkDeps d p rest

/-- rule.py line 177: portfolio return as the weighted sum of asset returns
over the previous state's weights. -/
def portfolioReturn (weights rets : List (Ticker × ℚ)) : ℚ :=
  (weights.map (fun w => dlookup rets w.1 * w.2)).sum

/-- rule.py lines 187-190: drifted weights when the date is not a month
end. -/
def driftWeights (cfg : EqualWeightStrategy) (prevW rets : List (Ticker × ℚ))
    (pr : ℚ) : List (Ticker × ℚ) :=
  cfg.basket.map (fun a => (a, dlookup prevW a * (1 + dlookup rets a) / (1 + pr)))

/-- EqualWeightStrategy._compute_state_unsafe (rule.py lines 119-205), with
an explicit fuel argument making the recursion on the strictly smaller
predecessor date structural; compute_state below supplies fuel d + 1, which
computeStateF_fuel_irrelevant proves sufficient (every recursive call
strictly decreases the date). The pair result keeps the post-state visible
on failure, matching a propagating Python exception. -/
def computeStateF (cfg : EqualWeightStrategy) :
    Nat → Nat → Sys → Except Err EqualWeightStrategyState × Sys
  | 0, _, sys => (.error .scheduleError, sys)
  | fuel+1, d, sys =>
    let r := sys.store.get sys.md.updatedDates d
    let sys₁ : Sys := { sys with store := r.2 }
    match r.1 with
    | some s => (.ok s, sys₁)
    | none =>
      if d = cfg.seed_date then
        (.ok (seedState cfg),
         { sys₁ with store := sys₁.store.put d (seedState cfg) [] })
      else
        match schedPrev cfg.calendar d with
        | none => (.error .scheduleError, sys₁)
        | some p =>
          match computeStateF cfg fuel p sys₁ with
          | (.error e, sys₂) => (.error e, sys₂)
          | (.ok prevSt, sys₂) =>
            match computeReturns sys₂.md d p cfg.basket with
            | .error e => (.error e, sys₂)
            | .ok rets =>
              let pr := portfolioReturn prevSt.weights rets
              let lvl := prevSt.index_level * (1 + pr)
              match isLastDayOfMonth cfg.calendar d with
              | .error e => (.error e, sys₂)
              | .ok isL =>
                let ws := if isL then equalWeights cfg
                          else driftWeights cfg prevSt.weights rets pr
                let s : EqualWeightStrategyState :=
                  { returns := rets, portfolio_return := pr,
                    index_level := lvl, weights := ws }
                (.ok s, { sys₂ with store := sys₂.store.put d s (mkDeps d p cfg.basket) })

/-- EqualWeightStrategy.compute_state: the public entry point; fuel d + 1
always suffices because each recursive call moves to a strictly smaller
date. -/
def compute_state (cfg : EqualWeightStrategy) (d : Nat) (sys : Sys) :
    Except Err EqualWeightStrategyState × Sys :=
  computeStateF cfg (d + 1) d sys

/-- MarketData.update (marketdata.py lines 89-119) at system level: error if
the (date, ticker) cell is absent; otherwise write the price, add the date
to the updated-dates registry, and run the registered callback, which is the
store's invalidate (registered in rule.py __post_init__). -/
def Sys.update (sys : Sys) (d : Nat) (t : Ticker) (price : ℚ) :
    Except Err Sys :=
  match sys.md.prices d t with
  | none => .error .marketDataError
  | some _ =>
    .ok { md := { prices := fun k s => if k = d ∧ s = t then some price
                                       else sys.md.prices k s,
                  updatedDates := d :: sys.md.updatedDates },
          store := sys.store.invalidate d }

/-- MarketData.clear_updated_dates (marketdata.py lines 145-152): the
clearChangeTracking operation of the spec. -/
def Sys.clearChangeTracking (sys : Sys) : Sys :=
  { sys with md := { sys.md with updatedDates := [] } }

/-- EqualWeightStrategy.resolve_dates (rule.py lines 73-87): the calendar
restricted to [from, to], the start defaulting to the seed date. -/
def resolve_dates (cfg : EqualWeightStrategy) (fromD : Option Nat) (toD : Nat) :
    List Nat :=
  subSchedule cfg.calendar (fromD.getD cfg.seed_date) toD

/-- The dict comprehension of runner.get_states: compute each date in order,
the first failure aborting the whole request. -/
def getStatesGo (cfg : EqualWeightStrategy) :
    List Nat → Sys → Except Err (List (Nat × EqualWeightStrategyState)) × Sys
  | [], sys => (.ok [], sys)
  | d :: rest, sys =>
    match compute_state cfg d sys with
    | (.ok s, sys₁) =>
      match getStatesGo cfg rest sys₁ with
      | (.ok m, sys₂) => (.ok ((d, s) :: m), sys₂)
      | (.error e, sys₂) => (.error e, sys₂)
    | (.error e, sys₁) => (.error e, sys₁)

/-- runner.get_states (runner.py lines 5-26). -/
def get_states (cfg : EqualWeightStrategy) (fromD : Option Nat) (toD : Nat)
    (sys : Sys) : Except Err (List (Nat × EqualWeightStrategyState)) × Sys :=
  getStatesGo cfg (resolve_dates cfg fromD toD) sys

/-! Concrete instances used by the witness theorems. -/

/-- A throwaway payload state for store-level witnesses. -/
def r1 : EqualWeightStrategyState :=
  { returns := [], portfolio_return := 0, index_level := 100, weights := [] }

/-- A one-entry store whose entry at date 5 depends on date 3. -/
def st1 : StateStore EqualWeightStrategyState :=
  { cache := fun k => if k = 5 then some r1 else none,
    deps := fun k => if k = 5 then some [(3, "A")] else none }

/-- A store with an entry (with empty dependency set) at every date. -/
def st2 : StateStore EqualWeightStrategyState :=
  { cache := fun _ => some r1, deps := fun _ => some [] }

/-- A three-date calendar (two January dates, one February date), one-asset
basket, seeded at the first date. -/
def cfg0 : EqualWeightStrategy :=
  { basket := ["A"], seed_date := 101, calendar := [101, 102, 201],
    initial_index_level := 100 }

/-- Market data with a price for every asset at every date. -/
def md0 : MarketData :=
  { prices := fun _ _ => some 10,
    updatedDates := [] }

/-- The empty store. -/
def emptyStore : StateStore EqualWeightStrategyState :=
  { cache := fun _ => none, deps := fun _ => none }

/-- Fresh system: full market data, empty cache. -/
def sys0 : Sys := { md := md0, store := emptyStore }

/-- Market data where only (101, A) has a price. -/
def mdPartial : MarketData :=
  { prices := fun d t => if d = 101 ∧ t = "A" then some 10 else none,
    updatedDates := [] }

/-- System with partial market data and an empty cache. -/
def sysPartial : Sys := { md := mdPartial, store := emptyStore }

/-- sys0 after updating the price of A at date 102 (the value Sys.update
produces on that input). -/
def sysU : Sys :=
  { md := { prices := fun k s => if k = 102 ∧ s = "A" then some 11
                                 else md0.prices k s,
            updatedDates := [102] },
    store := emptyStore.invalidate 102 }

/-- The range result of get_states over cfg0 up to date 102, extracted from
the run itself. -/
def w9m : List (Nat × EqualWeightStrategyState) :=
  ((get_states cfg0 none 102 sys0).1).toOption.getD []

/-! Shared lemmas about the store operations. -/

theorem StateStore.get_of_cache_none (st : StateStore σ) (u : List Nat) (d : Nat)
    (h : st.cache d = none) : st.get u d = (none, st) := by
  simp [StateStore.get, h]

theorem StateStore.get_valid (st : StateStore σ) (u : List Nat) (d : Nat) (s : σ)
    (hc : st.cache d = some s) (hv : st.is_valid u d = true) :
    st.get u d = (some s, st) := by
  simp [StateStore.get, hc, hv]

theorem StateStore.get_invalid (st : StateStore σ) (u : List Nat) (d : Nat) (s : σ)
    (hc : st.cache d = some s) (hv : st.is_valid u d = false) :
    st.get u d = (none, st.erase d) := by
  simp [StateStore.get, hc, hv]

theorem StateStore.erase_wf (st : StateStore σ) (d : Nat) (h : st.WF) :
    (st.erase d).WF := by
  intro j hj
  simp only [StateStore.erase] at hj ⊢
  split at hj
  · simp [*]
  · split
    · rfl
    · exact h j hj

theorem StateStore.get_wf (st : StateStore σ) (u : List Nat) (d : Nat)
    (h : st.WF) : (st.get u d).2.WF := by
  unfold StateStore.get
  split
  · split
    · exact h
    · exact st.erase_wf d h
  · exact h

theorem StateStore.put_wf (st : StateStore σ) (d : Nat) (s : σ)
    (ds : List (Nat × Ticker)) (h : st.WF) : (st.put d s ds).WF := by
  intro j hj
  simp only [StateStore.put] at hj ⊢
  split at hj
  · exact absurd hj (by simp)
  · split
    · simp_all
    · exact h j hj

theorem StateStore.get_none_post (st : StateStore σ) (u : List Nat) (d : Nat)
    (hwf : st.WF) (h : (st.get u d).1 = none) :
    (st.get u d).2.cache d = none ∧ (st.get u d).2.deps d = none := by
  cases hc : st.cache d with
  | none => rw [st.get_of_cache_none u d hc]; exact ⟨hc, hwf d hc⟩
  | some s =>
    cases hv : st.is_valid u d with
    | true => rw [st.get_valid u d s hc hv] at h; simp at h
    | false => rw [st.get_invalid u d s hc hv]; simp [StateStore.erase]

/-- The validity test of statestore.py in the spec's phrasing: true iff no
dependency address has its date in the registry. -/
theorem is_valid_iff (st : StateStore σ) (u : List Nat) (d : Nat)
    (ds : List (Nat × Ticker)) (hd : st.deps d = some ds) :
    st.is_valid u d = true ↔ ∀ a ∈ ds, a.1 ∉ u := by
  simp [StateStore.is_valid, hd, List.any_eq_true]

/-- C1: Store.get(K) returns the cached Result exactly when an entry for K
is present and valid, where an entry with stored DependencySet ds is valid
iff no key component of an Address in ds is present in the changed-address
registry; when present but invalid, get(K) removes both the Result and the
DependencySet for K and returns absent; when absent, get(K) returns absent
and leaves the store unchanged. -/
theorem C1_get_contract (st : StateStore σ) (reg : List Nat) (K : Nat) :
    (∀ r ds, st.cache K = some r → st.deps K = some ds →
      ((∀ a ∈ ds, a.1 ∉ reg) → st.get reg K = (some r, st)) ∧
      ((∃ a ∈ ds, a.1 ∈ reg) →
        (st.get reg K).1 = none ∧ (st.get reg K).2.cache K = none ∧
          (st.get reg K).2.deps K = none)) ∧
    (st.cache K = none → st.get reg K = (none, st)) := by
  refine ⟨fun r ds hc hd => ⟨fun hvalid => ?_, fun hinvalid => ?_⟩,
          fun hnone => st.get_of_cache_none reg K hnone⟩
  · exact st.get_valid reg K r hc ((is_valid_iff st reg K ds hd).mpr hvalid)
  · have hv : st.is_valid reg K = false := by
      cases hvv : st.is_valid reg K with
      | false => rfl
      | true =>
        rcases hinvalid with ⟨a, hads, hareg⟩
        exact absurd hareg ((is_valid_iff st reg K ds hd).mp hvv a hads)
    rw [st.get_invalid reg K r hc hv]
    simp [StateStore.erase]

/-- Witness for C1: the entry at date 5 of st1 depends only on date 3, so a
registry containing only date 7 leaves it valid and get returns it
untouched. -/
theorem C1_witness : st1.get [7] 5 = (some r1, st1) :=
  ((C1_get_contract st1 [7] 5).1 r1 [(3, "A")] rfl rfl).1 (by decide)

/-- C2: invalidateFrom(k) removes exactly the cache entries (Result and
DependencySet) at keys greater than or equal to k, preserves every entry at
a key strictly below k, never adds an entry, and is a no-op when no entry's
key is greater than or equal to k. (It is a total function, so it never
raises.) The well-formedness hypothesis — every date with a dependency
record also has a cached result — holds in every state the store's API can
reach. -/
theorem C2_invalidateFrom (st : StateStore σ) (k : Nat) (hwf : st.WF) :
    (∀ j, k ≤ j → (st.invalidate k).cache j = none ∧
      (st.invalidate k).deps j = none) ∧
    (∀ j, j < k → (st.invalidate k).cache j = st.cache j ∧
      (st.invalidate k).deps j = st.deps j) ∧
    (∀ j, ((st.invalidate k).cache j).isSome → (st.cache j).isSome) ∧
    ((∀ j, k ≤ j → st.cache j = none) → st.invalidate k = st) := by
  refine ⟨fun j hj => ⟨by simp [StateStore.invalidate, hj], ?_⟩,
          fun j hj => ⟨by simp [StateStore.invalidate, Nat.not_le.mpr hj],
                       by simp [StateStore.invalidate, Nat.not_le.mpr hj]⟩,
          fun j hj => ?_, fun hnone => ?_⟩
  · cases hc : st.cache j with
    | none => simp [StateStore.invalidate, hc, hwf j hc]
    | some s => simp [StateStore.invalidate, hj, hc]
  · by_contra hc
    rw [Option.not_isSome_iff_eq_none] at hc
    simp [StateStore.invalidate, hc] at hj
  · obtain ⟨c, ds⟩ := st
    simp only [StateStore.invalidate, StateStore.mk.injEq]
    constructor
    · funext j
      by_cases hj : k ≤ j
      · simp [hj, (hnone j hj).symm]
      · simp [hj]
    · funext j
      by_cases hj : k ≤ j
      · have hcj : c j = none := hnone j hj
        simp [hcj]
      · simp [hj]

/-- Witness for C2: in the everywhere-filled store st2, invalidating from
date 5 empties the entry at date 7. -/
theorem C2_witness : (st2.invalidate 5).cache 7 = none :=
  ((C2_invalidateFrom st2 5 (fun _ h => Option.noConfusion h)).1 7
    (by decide)).1

/-! Lemmas about the schedule. -/

theorem schedPrev_lt {cal : List Nat} {d p : Nat}
    (h : schedPrev cal d = some p) : p < d := by
  unfold schedPrev at h
  have hmem : p ∈ cal.filter (fun x => decide (x < d)) :=
    List.max?_mem (fun a b => max_choice a b) h
  have := (List.mem_filter.mp hmem).2
  simpa using this

theorem schedPrev_eq_none {cal : List Nat} {d : Nat}
    (h : ∀ j ∈ cal, ¬ j < d) : schedPrev cal d = none := by
  unfold schedPrev
  have : cal.filter (fun x => decide (x < d)) = [] := by
    rw [List.filter_eq_nil_iff]
    intro a ha
    simpa using h a ha
  rw [this]
  rfl

theorem schedNext_eq_none {cal : List Nat} {d : Nat}
    (h : ∀ j ∈ cal, ¬ d < j) : schedNext cal d = none := by
  unfold schedNext
  have : cal.filter (fun x => decide (d < x)) = [] := by
    rw [List.filter_eq_nil_iff]
    intro a ha
    simpa using h a ha
  rw [this]
  rfl

/-! Locality of the store operations: get and put at date d leave every
other date's entry untouched. -/

theorem StateStore.get_local (st : StateStore σ) (u : List Nat) (d : Nat) :
    ∀ j, j ≠ d → (st.get u d).2.cache j = st.cache j ∧
      (st.get u d).2.deps j = st.deps j := by
  intro j hj
  unfold StateStore.get
  split
  · split
    · exact ⟨rfl, rfl⟩
    · simp [StateStore.erase, hj]
  · exact ⟨rfl, rfl⟩

theorem StateStore.put_local (st : StateStore σ) (d : Nat) (s : σ)
    (ds : List (Nat × Ticker)) :
    ∀ j, j ≠ d → (st.put d s ds).cache j = st.cache j ∧
      (st.put d s ds).deps j = st.deps j := by
  intro j hj
  simp [StateStore.put, hj]

/-- Structural invariants of one compute_state call, for any fuel: market
data is never modified, the store is only modified at the computed date and
its chain of strictly earlier dates, and store well-formedness is
preserved. -/
theorem computeStateF_inv (cfg : EqualWeightStrategy) :
    ∀ (f d : Nat) (sys : Sys),
      (computeStateF cfg f d sys).2.md = sys.md ∧
      (∀ j, d < j →
        (computeStateF cfg f d sys).2.store.cache j = sys.store.cache j ∧
        (computeStateF cfg f d sys).2.store.deps j = sys.store.deps j) ∧
      (sys.store.WF → (computeStateF cfg f d sys).2.store.WF) := by
  intro f
  induction f with
  | zero => exact fun d sys => ⟨rfl, fun j _ => ⟨rfl, rfl⟩, fun h => h⟩
  | succ f ih =>
    intro d sys
    have hA_loc := StateStore.get_local sys.store sys.md.updatedDates d
    have hA_wf := fun h => StateStore.get_wf sys.store sys.md.updatedDates d h
    rcases hr : sys.store.get sys.md.updatedDates d with ⟨c, store₁⟩
    rw [hr] at hA_loc hA_wf
    cases c with
    | some s =>
      have hred : computeStateF cfg (f + 1) d sys =
          (.ok s, { sys with store := store₁ }) := by
        simp only [computeStateF, hr]
      rw [hred]
      exact ⟨rfl, fun j hj => hA_loc j (Nat.ne_of_lt hj).symm, hA_wf⟩
    | none =>
      by_cases hd : d = cfg.seed_date
      · have hred : computeStateF cfg (f + 1) d sys =
            (.ok (seedState cfg),
             { md := sys.md, store := store₁.put d (seedState cfg) [] }) := by
          simp only [computeStateF, hr, if_pos hd]
        rw [hred]
        refine ⟨rfl, fun j hj => ?_, fun hwf => ?_⟩
        · have h1 := StateStore.put_local store₁ d (seedState cfg) [] j
            (Nat.ne_of_lt hj).symm
          have h2 := hA_loc j (Nat.ne_of_lt hj).symm
          exact ⟨h1.1.trans h2.1, h1.2.trans h2.2⟩
        · exact StateStore.put_wf store₁ d (seedState cfg) [] (hA_wf hwf)
      · cases hp : schedPrev cfg.calendar d with
        | none =>
          have hred : computeStateF cfg (f + 1) d sys =
              (.error .scheduleError, { sys with store := store₁ }) := by
            simp only [computeStateF, hr, if_neg hd, hp]
          rw [hred]
          exact ⟨rfl, fun j hj => hA_loc j (Nat.ne_of_lt hj).symm, hA_wf⟩
        | some p =>
          have hpd : p < d := schedPrev_lt hp
          rcases hrec : computeStateF cfg f p { sys with store := store₁ }
            with ⟨res, sys₂⟩
          have ihp := ih p { sys with store := store₁ }
          rw [hrec] at ihp
          obtain ⟨ih_md, ih_loc, ih_wf⟩ := ihp
          have hB_loc : ∀ j, d < j →
              sys₂.store.cache j = sys.store.cache j ∧
              sys₂.store.deps j = sys.store.deps j := by
            intro j hj
            have h1 := ih_loc j (hpd.trans hj)
            have h2 := hA_loc j (Nat.ne_of_lt hj).symm
            exact ⟨h1.1.trans h2.1, h1.2.trans h2.2⟩
          have hB_wf : sys.store.WF → sys₂.store.WF := fun h => ih_wf (hA_wf h)
          cases res with
          | error e =>
            have hred : computeStateF cfg (f + 1) d sys = (.error e, sys₂) := by
              simp only [computeStateF, hr, if_neg hd, hp, hrec]
            rw [hred]
            exact ⟨ih_md, hB_loc, hB_wf⟩
          | ok prevSt =>
            cases hrets : computeReturns sys₂.md d p cfg.basket with
            | error e =>
              have hred : computeStateF cfg (f + 1) d sys = (.error e, sys₂) := by
                simp only [computeStateF, hr, if_neg hd, hp, hrec, hrets]
              rw [hred]
              exact ⟨ih_md, hB_loc, hB_wf⟩
            | ok rets =>
              cases hlast : isLastDayOfMonth cfg.calendar d with
              | error e =>
                have hred : computeStateF cfg (f + 1) d sys = (.error e, sys₂) := by
                  simp only [computeStateF, hr, if_neg hd, hp, hrec, hrets, hlast]
                rw [hred]
                exact ⟨ih_md, hB_loc, hB_wf⟩
              | ok isL =>
                refine ⟨?_, fun j hj => ?_, fun hwf => ?_⟩
                · simp only [computeStateF, hr, if_neg hd, hp, hrec, hrets, hlast]
                  exact ih_md
                · have hjd : j ≠ d := (Nat.ne_of_lt hj).symm
                  have h2 := hB_loc j hj
                  simp only [computeStateF, hr, if_neg hd, hp, hrec, hrets,
                    hlast, StateStore.put]
                  exact ⟨by simp only [if_neg hjd]; exact h2.1,
                         by simp only [if_neg hjd]; exact h2.2⟩
                · simp only [computeStateF, hr, if_neg hd, hp, hrec, hrets, hlast]
                  exact StateStore.put_wf sys₂.store d _ _ (hB_wf hwf)

/-- Any fuel beyond the computed date gives the same run: the fuel argument
is an artifact of making the source's well-founded recursion on the
strictly decreasing predecessor date structural, not a semantic bound. -/
theorem computeStateF_fuel_irrelevant (cfg : EqualWeightStrategy) :
    ∀ (f₁ d : Nat) (sys : Sys) (f₂ : Nat), d < f₁ → d < f₂ →
      computeStateF cfg f₁ d sys = computeStateF cfg f₂ d sys := by
  intro f₁
  induction f₁ with
  | zero => intro d sys f₂ h1 _; exact absurd h1 (Nat.not_lt_zero d)
  | succ f ih =>
    intro d sys f₂ h1 h2
    cases f₂ with
    | zero => exact absurd h2 (Nat.not_lt_zero d)
    | succ g =>
      rcases hr : sys.store.get sys.md.updatedDates d with ⟨c, store₁⟩
      cases c with
      | some s => simp only [computeStateF, hr]
      | none =>
        by_cases hd : d = cfg.seed_date
        · simp only [computeStateF, hr, if_pos hd]
        · cases hp : schedPrev cfg.calendar d with
          | none => simp only [computeStateF, hr, if_neg hd, hp]
          | some p =>
            have hpd : p < d := schedPrev_lt hp
            have hrec_eq : computeStateF cfg f p { sys with store := store₁ } =
                computeStateF cfg g p { sys with store := store₁ } :=
              ih p { sys with store := store₁ } g
                (Nat.lt_of_lt_of_le hpd (Nat.lt_succ_iff.mp h1))
                (Nat.lt_of_lt_of_le hpd (Nat.lt_succ_iff.mp h2))
            simp only [computeStateF, hr, if_neg hd, hp, hrec_eq]

theorem computeStateF_md (cfg : EqualWeightStrategy) (f d : Nat) (sys : Sys) :
    (computeStateF cfg f d sys).2.md = sys.md :=
  (computeStateF_inv cfg f d sys).1

theorem computeStateF_above (cfg : EqualWeightStrategy) (f d : Nat) (sys : Sys)
    (j : Nat) (hj : d < j) :
    (computeStateF cfg f d sys).2.store.cache j = sys.store.cache j ∧
    (computeStateF cfg f d sys).2.store.deps j = sys.store.deps j :=
  (computeStateF_inv cfg f d sys).2.1 j hj

theorem computeStateF_wf (cfg : EqualWeightStrategy) (f d : Nat) (sys : Sys)
    (h : sys.store.WF) : (computeStateF cfg f d sys).2.store.WF :=
  (computeStateF_inv cfg f d sys).2.2 h

/-- Association-list lookup over a keyed map of the basket recovers the
mapped value at each basket member. -/
theorem dlookup_map (l : List Ticker) (g : Ticker → ℚ) (a : Ticker)
    (ha : a ∈ l) : dlookup (l.map (fun x => (x, g x))) a = g a := by
  induction l with
  | nil => cases ha
  | cons b rest ih =>
    by_cases hba : b = a
    · subst hba
      simp [dlookup, List.find?]
    · have hmem : a ∈ rest := by
        rcases List.mem_cons.mp ha with h | h
        · exact absurd h.symm hba
        · exact h
      have hbeq : (b == a) = false := by simp [hba]
      have ih2 := ih hmem
      unfold dlookup at ih2 ⊢
      rw [List.map_cons, List.find?_cons]
      simp only [hbeq]
      exact ih2

/-- C5: compute(seed) on a cache miss stores and returns the seed Result —
equal weights 1/n per basket asset, index level equal to the configured
initial level, zero returns — with an empty DependencySet, and performs no
read of the external data source: the last conjunct shows the outcome is
the same under every price table whatsoever. -/
theorem C5_base_case (cfg : EqualWeightStrategy) (sys : Sys)
    (hmiss : sys.store.cache cfg.seed_date = none) :
    compute_state cfg cfg.seed_date sys =
      (.ok (seedState cfg),
       { md := sys.md,
         store := sys.store.put cfg.seed_date (seedState cfg) [] }) ∧
    (sys.store.put cfg.seed_date (seedState cfg) []).deps cfg.seed_date =
      some [] ∧
    (seedState cfg).index_level = cfg.initial_index_level ∧
    (seedState cfg).portfolio_return = 0 ∧
    (∀ a ∈ cfg.basket,
      dlookup (seedState cfg).weights a = 1 / (cfg.basket.length : ℚ) ∧
      dlookup (seedState cfg).returns a = 0) ∧
    (∀ P : Nat → Ticker → Option ℚ,
      (compute_state cfg cfg.seed_date
        { sys with md := { sys.md with prices := P } }).1 =
        .ok (seedState cfg)) := by
  have hmain : ∀ sys2 : Sys, sys2.store.cache cfg.seed_date = none →
      compute_state cfg cfg.seed_date sys2 =
        (.ok (seedState cfg),
         { md := sys2.md,
           store := sys2.store.put cfg.seed_date (seedState cfg) [] }) := by
    intro sys2 h2
    simp only [compute_state, computeStateF,
      StateStore.get_of_cache_none sys2.store sys2.md.updatedDates
        cfg.seed_date h2, if_pos rfl, ite_true]
  refine ⟨hmain sys hmiss, by simp [StateStore.put], rfl, rfl,
    fun a ha => ⟨?_, ?_⟩, fun P => ?_⟩
  · exact dlookup_map cfg.basket (fun _ => 1 / (cfg.basket.length : ℚ)) a ha
  · exact dlookup_map cfg.basket (fun _ => 0) a ha
  · rw [hmain { sys with md := { sys.md with prices := P } } hmiss]

/-- Witness for C5: the seed computation on the fresh system. -/
theorem C5_witness :
    compute_state cfg0 cfg0.seed_date sys0 =
      (.ok (seedState cfg0),
       { md := sys0.md,
         store := sys0.store.put cfg0.seed_date (seedState cfg0) [] }) :=
  (C5_base_case cfg0 sys0 rfl).1

/-- C6: a compute(K) call that terminates with an error never puts an entry
for K: the post-state cache and dependency map hold nothing at K (the error
itself is returned unmodified as the call's result, which is what the
hypothesis exhibits). -/
theorem C6_failure_atomicity (cfg : EqualWeightStrategy) (sys : Sys)
    (K : Nat) (e : Err) (hwf : sys.store.WF)
    (herr : (compute_state cfg K sys).1 = .error e) :
    (compute_state cfg K sys).2.store.cache K = none ∧
    (compute_state cfg K sys).2.store.deps K = none := by
  unfold compute_state at herr ⊢
  rcases hr : sys.store.get sys.md.updatedDates K with ⟨c, store₁⟩
  cases c with
  | some s =>
    have hok : (computeStateF cfg (K + 1) K sys).1 = .ok s := by
      simp only [computeStateF, hr]
    rw [hok] at herr
    exact Except.noConfusion herr
  | none =>
    have hpost1 : store₁.cache K = none ∧ store₁.deps K = none := by
      have h0 : (sys.store.get sys.md.updatedDates K).1 = none := by rw [hr]
      have := StateStore.get_none_post sys.store sys.md.updatedDates K hwf h0
      rw [hr] at this
      exact this
    by_cases hK : K = cfg.seed_date
    · have hok : (computeStateF cfg (K + 1) K sys).1 = .ok (seedState cfg) := by
        simp only [computeStateF, hr, if_pos hK]
      rw [hok] at herr
      exact Except.noConfusion herr
    · cases hp : schedPrev cfg.calendar K with
      | none =>
        have hred : computeStateF cfg (K + 1) K sys =
            (.error .scheduleError, { sys with store := store₁ }) := by
          simp only [computeStateF, hr, if_neg hK, hp]
        rw [hred]
        exact hpost1
      | some p =>
        have hpd : p < K := schedPrev_lt hp
        rcases hrec : computeStateF cfg K p { sys with store := store₁ }
          with ⟨res, sys₂⟩
        have habove := computeStateF_above cfg K p
          { sys with store := store₁ } K hpd
        rw [hrec] at habove
        have hK2 : sys₂.store.cache K = none ∧ sys₂.store.deps K = none :=
          ⟨habove.1.trans hpost1.1, habove.2.trans hpost1.2⟩
        cases res with
        | error e2 =>
          have hred : computeStateF cfg (K + 1) K sys = (.error e2, sys₂) := by
            simp only [computeStateF, hr, if_neg hK, hp, hrec]
          rw [hred]
          exact hK2
        | ok prevSt =>
          cases hrets : computeReturns sys₂.md K p cfg.basket with
          | error e2 =>
            have hred : computeStateF cfg (K + 1) K sys = (.error e2, sys₂) := by
              simp only [computeStateF, hr, if_neg hK, hp, hrec, hrets]
            rw [hred]
            exact hK2
          | ok rets =>
            cases hlast : isLastDayOfMonth cfg.calendar K with
            | error e2 =>
              have hred : computeStateF cfg (K + 1) K sys =
                  (.error e2, sys₂) := by
                simp only [computeStateF, hr, if_neg hK, hp, hrec, hrets, hlast]
              rw [hred]
              exact hK2
            | ok isL =>
              have hok : (computeStateF cfg (K + 1) K sys).1.isOk = true := by
                simp only [computeStateF, hr, if_neg hK, hp, hrec, hrets, hlast,
                  Except.isOk, Except.toBool]
              rw [herr] at hok
              simp [Except.isOk, Except.toBool] at hok

/-- Witness for C6: computing date 102 with a price table that only covers
date 101 fails with MarketDataError and leaves no entry at 102. -/
theorem C6_witness :
    (compute_state cfg0 102 sysPartial).2.store.cache 102 = none ∧
    (compute_state cfg0 102 sysPartial).2.store.deps 102 = none :=
  C6_failure_atomicity cfg0 sysPartial 102 .marketDataError
    (fun _ _ => rfl) rfl

/-- C7: for K not the seed key and not cached, when nothing in the calendar
is strictly earlier than K, compute(K) fails with the range error
(ScheduleError from Schedule.prev). -/
theorem C7_range_error (cfg : EqualWeightStrategy) (sys : Sys) (K : Nat)
    (hmiss : sys.store.cache K = none)
    (hK : K ≠ cfg.seed_date)
    (hfirst : ∀ j ∈ cfg.calendar, ¬ j < K) :
    (compute_state cfg K sys).1 = .error .scheduleError := by
  have hp : schedPrev cfg.calendar K = none := schedPrev_eq_none hfirst
  simp only [compute_state, computeStateF,
    StateStore.get_of_cache_none sys.store sys.md.updatedDates K hmiss,
    if_neg hK, hp]

/-- Witness for C7: date 100 precedes the whole calendar of cfg0. -/
theorem C7_witness : (compute_state cfg0 100 sys0).1 = .error .scheduleError :=
  C7_range_error cfg0 sys0 100 rfl (by decide) (by decide)

/-- The dependency set recorded for a computed date d names d at every
basket asset. -/
theorem mkDeps_mem (d p : Nat) :
    ∀ l : List Ticker, ∀ a ∈ l, (d, a) ∈ mkDeps d p l := by
  intro l
  induction l with
  | nil => intro a ha; cases ha
  | cons b rest ih =>
    intro a ha
    rcases List.mem_cons.mp ha with h | h
    · subst h
      exact List.mem_cons_self _ _
    · exact List.mem_cons_of_mem _ (List.mem_cons_of_mem _ (ih a h))

/-- C3: after the external data at K is updated (which registers K in the
changed-address registry and invalidates the cache from K) and the state at
a non-seed K is successfully recomputed and re-stored (its recorded
DependencySet then names K at every basket asset, nonempty since the basket
holds a), a subsequent Store.get(K) against the live registry still reports
the entry invalid and returns absent, while after clearChangeTracking the
very same stored Result is returned. -/
theorem C3_sticky_invalidity (cfg : EqualWeightStrategy) (sys sys₁ : Sys)
    (K : Nat) (t a : Ticker) (price : ℚ)
    (hupd : sys.update K t price = .ok sys₁)
    (hK : K ≠ cfg.seed_date)
    (ha : a ∈ cfg.basket)
    (hok : (compute_state cfg K sys₁).1.isOk = true) :
    ((compute_state cfg K sys₁).2.store.get
        (compute_state cfg K sys₁).2.md.updatedDates K).1 = none ∧
    ((compute_state cfg K sys₁).2.clearChangeTracking.store.get
        (compute_state cfg K sys₁).2.clearChangeTracking.md.updatedDates K).1 =
      (compute_state cfg K sys₁).1.toOption := by
  -- unpack the update
  cases hq : sys.md.prices K t with
  | none =>
    rw [Sys.update] at hupd
    rw [hq] at hupd
    exact Except.noConfusion hupd
  | some q =>
    rw [Sys.update] at hupd
    rw [hq] at hupd
    rw [Except.ok.injEq] at hupd
    have hmiss : sys₁.store.cache K = none := by
      rw [← hupd]
      simp [StateStore.invalidate]
    have hreg : sys₁.md.updatedDates = K :: sys.md.updatedDates := by
      rw [← hupd]
    -- unpack the successful recomputation
    rcases hv : (compute_state cfg K sys₁).1 with e | s
    · rw [hv] at hok
      simp [Except.isOk, Except.toBool] at hok
    have hget := StateStore.get_of_cache_none sys₁.store
      sys₁.md.updatedDates K hmiss
    unfold compute_state at hv ⊢
    cases hp : schedPrev cfg.calendar K with
    | none =>
      have : (computeStateF cfg (K + 1) K sys₁).1 = .error .scheduleError := by
        simp only [computeStateF, hget, if_neg hK, hp]
      rw [hv] at this
      exact Except.noConfusion this
    | some p =>
      rcases hrec : computeStateF cfg K p { sys₁ with store := sys₁.store }
        with ⟨res, sys₂⟩
      cases res with
      | error e2 =>
        have : (computeStateF cfg (K + 1) K sys₁).1 = .error e2 := by
          simp only [computeStateF, hget, if_neg hK, hp, hrec]
        rw [hv] at this
        exact Except.noConfusion this
      | ok prevSt =>
        cases hrets : computeReturns sys₂.md K p cfg.basket with
        | error e2 =>
          have : (computeStateF cfg (K + 1) K sys₁).1 = .error e2 := by
            simp only [computeStateF, hget, if_neg hK, hp, hrec, hrets]
          rw [hv] at this
          exact Except.noConfusion this
        | ok rets =>
          cases hlast : isLastDayOfMonth cfg.calendar K with
          | error e2 =>
            have : (computeStateF cfg (K + 1) K sys₁).1 = .error e2 := by
              simp only [computeStateF, hget, if_neg hK, hp, hrec, hrets, hlast]
            rw [hv] at this
            exact Except.noConfusion this
          | ok isL =>
            -- the cache and dependency state after the re-store
            have hcacheK : (computeStateF cfg (K + 1) K sys₁).2.store.cache K =
                (computeStateF cfg (K + 1) K sys₁).1.toOption := by
              simp only [computeStateF, hget, if_neg hK, hp, hrec, hrets, hlast,
                StateStore.put, Except.toOption]
              simp
            have hdepsK : (computeStateF cfg (K + 1) K sys₁).2.store.deps K =
                some (mkDeps K p cfg.basket) := by
              simp only [computeStateF, hget, if_neg hK, hp, hrec, hrets, hlast,
                StateStore.put]
              simp
            have hmd : (computeStateF cfg (K + 1) K sys₁).2.md = sys₁.md := by
              have h1 := computeStateF_md cfg K p { sys₁ with store := sys₁.store }
              rw [hrec] at h1
              simp only [computeStateF, hget, if_neg hK, hp, hrec, hrets, hlast]
              exact h1
            rw [hv] at hcacheK
            have hmemK : (K, a) ∈ mkDeps K p cfg.basket :=
              mkDeps_mem K p cfg.basket a ha
            have hinv : ((computeStateF cfg (K + 1) K sys₁).2.store).is_valid
                ((computeStateF cfg (K + 1) K sys₁).2.md.updatedDates) K
                  = false := by
              rw [StateStore.is_valid, hdepsK, hmd, hreg]
              have hany : (mkDeps K p cfg.basket).any
                  (fun q => (K :: sys.md.updatedDates).contains q.1) = true :=
                List.any_eq_true.mpr ⟨(K, a), hmemK, by simp⟩
              show (!((mkDeps K p cfg.basket).any
                (fun q => (K :: sys.md.updatedDates).contains q.1))) = false
              rw [hany]
              rfl
            have hval : ((computeStateF cfg (K + 1) K sys₁).2.store).is_valid
                [] K = true := by
              rw [StateStore.is_valid, hdepsK]
              simp
            constructor
            · rw [StateStore.get_invalid _ _ _ s hcacheK hinv]
            · have := StateStore.get_valid
                ((computeStateF cfg (K + 1) K sys₁).2.store) [] K s hcacheK hval
              calc ((computeStateF cfg (K + 1) K sys₁).2.clearChangeTracking.store.get
                    (computeStateF cfg (K + 1) K sys₁).2.clearChangeTracking.md.updatedDates K).1
                  = ((computeStateF cfg (K + 1) K sys₁).2.store.get [] K).1 := rfl
                _ = some s := by rw [this]
                _ = (Except.ok s : Except Err EqualWeightStrategyState).toOption := rfl

/-- Witness for C3: update date 102 of cfg0's data, recompute 102, and read
it back against the live registry. -/
theorem C3_witness :
    ((compute_state cfg0 102 sysU).2.store.get
        (compute_state cfg0 102 sysU).2.md.updatedDates 102).1 = none :=
  (C3_sticky_invalidity cfg0 sys0 sysU 102 "A" "A" 11 rfl (by decide)
    (by decide) (by decide)).1

/-- When the price table covers every date of a list of tickers, the returns
loop succeeds. -/
theorem computeReturns_ok (md : MarketData) (d p : Nat) :
    ∀ l : List Ticker,
      (∀ t ∈ l, (md.prices d t).isSome ∧ (md.prices p t).isSome) →
      ∃ rs, computeReturns md d p l = .ok rs := by
  intro l
  induction l with
  | nil => exact fun _ => ⟨[], rfl⟩
  | cons a rest ih =>
    intro h
    have ha := h a (List.mem_cons_self a rest)
    rcases Option.isSome_iff_exists.mp ha.1 with ⟨x, hx⟩
    rcases Option.isSome_iff_exists.mp ha.2 with ⟨y, hy⟩
    rcases ih (fun u hu => h u (List.mem_cons_of_mem a hu)) with ⟨rs, hrs⟩
    refine ⟨(a, x / y - 1) :: rs, ?_⟩
    simp [computeReturns, MarketData.get, hx, hy, hrs]

/-- With a price table covering every basket asset at every date, the only
error compute_state can produce is ScheduleError (MarketDataError arises
only from a failing read). -/
theorem computeStateF_error_schedule (cfg : EqualWeightStrategy) :
    ∀ (f d : Nat) (sys : Sys) (e : Err),
      (∀ j u, u ∈ cfg.basket → (sys.md.prices j u).isSome) →
      (computeStateF cfg f d sys).1 = .error e → e = .scheduleError := by
  intro f
  induction f with
  | zero =>
    intro d sys e _ h
    simp only [computeStateF] at h
    rw [Except.error.injEq] at h
    exact h.symm
  | succ f ih =>
    intro d sys e htot herr
    rcases hr : sys.store.get sys.md.updatedDates d with ⟨c, store₁⟩
    cases c with
    | some s =>
      have hok2 : (computeStateF cfg (f + 1) d sys).1 = .ok s := by
        simp only [computeStateF, hr]
      rw [hok2] at herr
      exact Except.noConfusion herr
    | none =>
      by_cases hd : d = cfg.seed_date
      · have hok2 : (computeStateF cfg (f + 1) d sys).1 = .ok (seedState cfg) := by
          simp only [computeStateF, hr, if_pos hd]
        rw [hok2] at herr
        exact Except.noConfusion herr
      · cases hp : schedPrev cfg.calendar d with
        | none =>
          have hred : (computeStateF cfg (f + 1) d sys).1 =
              .error .scheduleError := by
            simp only [computeStateF, hr, if_neg hd, hp]
          rw [hred] at herr
          rw [Except.error.injEq] at herr
          exact herr.symm
        | some p =>
          rcases hrec : computeStateF cfg f p { sys with store := store₁ }
            with ⟨res, sys₂⟩
          cases res with
          | error e2 =>
            have hred : (computeStateF cfg (f + 1) d sys).1 = .error e2 := by
              simp only [computeStateF, hr, if_neg hd, hp, hrec]
            rw [hred] at herr
            rw [Except.error.injEq] at herr
            rw [← herr]
            exact ih p { sys with store := store₁ } e2 htot (by rw [hrec])
          | ok prevSt =>
            have hmd2 : sys₂.md = sys.md := by
              have h1 := computeStateF_md cfg f p { sys with store := store₁ }
              rw [hrec] at h1
              exact h1
            obtain ⟨rs, hrs⟩ := computeReturns_ok sys₂.md d p cfg.basket
              (fun u hu => by rw [hmd2]; exact ⟨htot d u hu, htot p u hu⟩)
            cases hlast : isLastDayOfMonth cfg.calendar d with
            | error e2 =>
              have he2 : e2 = .scheduleError := by
                unfold isLastDayOfMonth at hlast
                cases hn : schedNext cfg.calendar d with
                | none =>
                  rw [hn] at hlast
                  rw [Except.error.injEq] at hlast
                  exact hlast.symm
                | some n =>
                  rw [hn] at hlast
                  exact Except.noConfusion hlast
              have hred : (computeStateF cfg (f + 1) d sys).1 = .error e2 := by
                simp only [computeStateF, hr, if_neg hd, hp, hrec, hrs, hlast]
              rw [hred] at herr
              rw [Except.error.injEq] at herr
              rw [← herr]
              exact he2
            | ok isL =>
              have hok2 : (computeStateF cfg (f + 1) d sys).1.isOk = true := by
                simp only [computeStateF, hr, if_neg hd, hp, hrec, hrs, hlast,
                  Except.isOk, Except.toBool]
              rw [herr] at hok2
              simp [Except.isOk, Except.toBool] at hok2

/-- C10: for the greatest calendar date K (with K not the seed and not
cached) compute(K) raises ScheduleError even when every required price is
present, because the month-end rebalancing check asks the calendar for the
successor of K, which does not exist — and any earlier failure along the
chain is itself a ScheduleError since reads cannot fail. -/
theorem C10_last_date_schedule_error (cfg : EqualWeightStrategy) (sys : Sys)
    (K : Nat)
    (htot : ∀ j u, u ∈ cfg.basket → (sys.md.prices j u).isSome)
    (hmax : ∀ j ∈ cfg.calendar, ¬ K < j)
    (hK : K ≠ cfg.seed_date)
    (hmiss : sys.store.cache K = none) :
    (compute_state cfg K sys).1 = .error .scheduleError := by
  have hget := StateStore.get_of_cache_none sys.store sys.md.updatedDates K hmiss
  unfold compute_state
  cases hp : schedPrev cfg.calendar K with
  | none => simp only [computeStateF, hget, if_neg hK, hp]
  | some p =>
    rcases hrec : computeStateF cfg K p { sys with store := sys.store }
      with ⟨res, sys₂⟩
    cases res with
    | error e2 =>
      have he2 : e2 = .scheduleError :=
        computeStateF_error_schedule cfg K p { sys with store := sys.store }
          e2 htot (by rw [hrec])
      subst he2
      simp only [computeStateF, hget, if_neg hK, hp, hrec]
    | ok prevSt =>
      have hmd2 : sys₂.md = sys.md := by
        have h1 := computeStateF_md cfg K p { sys with store := sys.store }
        rw [hrec] at h1
        exact h1
      obtain ⟨rs, hrs⟩ := computeReturns_ok sys₂.md K p cfg.basket
        (fun u hu => by rw [hmd2]; exact ⟨htot K u hu, htot p u hu⟩)
      have hlast : isLastDayOfMonth cfg.calendar K = .error .scheduleError := by
        unfold isLastDayOfMonth
        rw [schedNext_eq_none hmax]
      simp only [computeStateF, hget, if_neg hK, hp, hrec, hrs, hlast]

/-- Witness for C10: date 201 is the greatest calendar date of cfg0 and its
computation fails with ScheduleError although every price is present. -/
theorem C10_witness :
    (compute_state cfg0 201 sys0).1 = .error .scheduleError :=
  C10_last_date_schedule_error cfg0 sys0 201 (fun _ _ _ => rfl) (by decide)
    (by decide) rfl

theorem StateStore.get_some_inv (st : StateStore σ) (u : List Nat) (d : Nat)
    (s : σ) (h : (st.get u d).1 = some s) :
    st.cache d = some s ∧ st.is_valid u d = true ∧ (st.get u d).2 = st := by
  cases hc : st.cache d with
  | none =>
    rw [st.get_of_cache_none u d hc] at h
    exact absurd h (by simp)
  | some s0 =>
    cases hv : st.is_valid u d with
    | false =>
      rw [st.get_invalid u d s0 hc hv] at h
      exact absurd h (by simp)
    | true =>
      rw [st.get_valid u d s0 hc hv] at h
      have hs : s0 = s := by simpa using h
      subst hs
      exact ⟨rfl, rfl, by rw [st.get_valid u d s0 hc hv]⟩

theorem StateStore.eq_of_pointwise (a b : StateStore σ)
    (h1 : ∀ k, a.cache k = b.cache k) (h2 : ∀ k, a.deps k = b.deps k) :
    a = b := by
  obtain ⟨ac, ad⟩ := a
  obtain ⟨bc, bd⟩ := b
  simp only [StateStore.mk.injEq]
  exact ⟨funext h1, funext h2⟩

theorem Sys.eq_of_parts (a b : Sys) (h1 : a.md = b.md)
    (h2 : a.store = b.store) : a = b := by
  obtain ⟨amd, ast⟩ := a
  obtain ⟨bmd, bst⟩ := b
  simp only [Sys.mk.injEq]
  exact ⟨h1, h2⟩

/-- Core of the idempotence claim: a successful compute leaves the system in
a state from which computing the same date again yields the same Result (a
valid cache hit, or a recomputation over unchanged market data arriving at
the identical value). -/
theorem computeStateF_idem (cfg : EqualWeightStrategy) :
    ∀ (f d : Nat) (sys : Sys) (s : EqualWeightStrategyState),
      sys.store.WF →
      (computeStateF cfg f d sys).1 = .ok s →
      (computeStateF cfg f d (computeStateF cfg f d sys).2).1 = .ok s := by
  intro f
  induction f with
  | zero =>
    intro d sys s _ h
    simp only [computeStateF] at h
    exact Except.noConfusion h
  | succ f ih =>
    intro d sys s hwf h1
    rcases hr : sys.store.get sys.md.updatedDates d with ⟨c, store₁⟩
    cases c with
    | some sc =>
      obtain ⟨hcache, hvalid, hpost⟩ := StateStore.get_some_inv sys.store
        sys.md.updatedDates d sc (by rw [hr])
      rw [hr] at hpost
      have hst : store₁ = sys.store := hpost
      have hred : computeStateF cfg (f + 1) d sys =
          (.ok sc, { sys with store := store₁ }) := by
        simp only [computeStateF, hr]
      have hsys : ({ sys with store := store₁ } : Sys) = sys := by
        rw [hst]
      simp only [hred, hsys] at h1 ⊢
      exact h1
    | none =>
      have h0 : (sys.store.get sys.md.updatedDates d).1 = none := by rw [hr]
      have hpost1 := StateStore.get_none_post sys.store sys.md.updatedDates d
        hwf h0
      rw [hr] at hpost1
      have hwf1 : store₁.WF := by
        have := StateStore.get_wf sys.store sys.md.updatedDates d hwf
        rw [hr] at this
        exact this
      by_cases hd : d = cfg.seed_date
      · have hred : computeStateF cfg (f + 1) d sys =
            (.ok (seedState cfg),
             { md := sys.md, store := store₁.put d (seedState cfg) [] }) := by
          simp only [computeStateF, hr, if_pos hd, ite_true]
        simp only [hred] at h1 ⊢
        have hs : seedState cfg = s := by simpa using h1
        have hc2 : (store₁.put d (seedState cfg) []).cache d =
            some (seedState cfg) := by simp [StateStore.put]
        have hd2 : (store₁.put d (seedState cfg) []).deps d =
            some ([] : List (Nat × Ticker)) := by simp [StateStore.put]
        have hv2 : (store₁.put d (seedState cfg) []).is_valid
            sys.md.updatedDates d = true := by
          rw [StateStore.is_valid, hd2]
          rfl
        have hget2 := StateStore.get_valid (store₁.put d (seedState cfg) [])
          sys.md.updatedDates d (seedState cfg) hc2 hv2
        have hred2 : (computeStateF cfg (f + 1) d
            { md := sys.md, store := store₁.put d (seedState cfg) [] }).1 =
            .ok (seedState cfg) := by
          simp only [computeStateF, hget2]
        rw [hred2, hs]
      · cases hp : schedPrev cfg.calendar d with
        | none =>
          have hred : (computeStateF cfg (f + 1) d sys).1 =
              .error .scheduleError := by
            simp only [computeStateF, hr, if_neg hd, hp]
          rw [hred] at h1
          exact Except.noConfusion h1
        | some p =>
          have hpd : p < d := schedPrev_lt hp
          rcases hrec : computeStateF cfg f p { sys with store := store₁ }
            with ⟨res, sysB⟩
          cases res with
          | error e2 =>
            have hred : (computeStateF cfg (f + 1) d sys).1 = .error e2 := by
              simp only [computeStateF, hr, if_neg hd, hp, hrec]
            rw [hred] at h1
            exact Except.noConfusion h1
          | ok sp =>
            cases hrets : computeReturns sysB.md d p cfg.basket with
            | error e2 =>
              have hred : (computeStateF cfg (f + 1) d sys).1 = .error e2 := by
                simp only [computeStateF, hr, if_neg hd, hp, hrec, hrets]
              rw [hred] at h1
              exact Except.noConfusion h1
            | ok rets =>
              cases hlast : isLastDayOfMonth cfg.calendar d with
              | error e2 =>
                have hred : (computeStateF cfg (f + 1) d sys).1 = .error e2 := by
                  simp only [computeStateF, hr, if_neg hd, hp, hrec, hrets, hlast]
                rw [hred] at h1
                exact Except.noConfusion h1
              | ok isL =>
                -- facts about the predecessor run
                have hmdB : sysB.md = sys.md := by
                  have hx := computeStateF_md cfg f p { sys with store := store₁ }
                  rw [hrec] at hx
                  exact hx
                have hBd : sysB.store.cache d = none ∧
                    sysB.store.deps d = none := by
                  have hx := computeStateF_above cfg f p
                    { sys with store := store₁ } d hpd
                  rw [hrec] at hx
                  exact ⟨hx.1.trans hpost1.1, hx.2.trans hpost1.2⟩
                -- the value the first run produced, explicitly
                have hfirst : (computeStateF cfg (f + 1) d sys).1 =
                    .ok ({ returns := rets,
                           portfolio_return := portfolioReturn sp.weights rets,
                           index_level := sp.index_level *
                             (1 + portfolioReturn sp.weights rets),
                           weights := if isL = true then equalWeights cfg
                             else driftWeights cfg sp.weights rets
                               (portfolioReturn sp.weights rets) }) := by
                  simp only [computeStateF, hr, if_neg hd, hp, hrec, hrets, hlast]
                -- facts about the post-state of the first run
                have hc2 : (computeStateF cfg (f + 1) d sys).2.store.cache d =
                    some s := by
                  have hx : (computeStateF cfg (f + 1) d sys).2.store.cache d =
                      (computeStateF cfg (f + 1) d sys).1.toOption := by
                    simp only [computeStateF, hr, if_neg hd, hp, hrec, hrets,
                      hlast, StateStore.put, Except.toOption]
                    simp
                  rw [hx, h1]
                  rfl
                have hYmd : (computeStateF cfg (f + 1) d sys).2.md = sysB.md := by
                  simp only [computeStateF, hr, if_neg hd, hp, hrec, hrets, hlast]
                have hYloc : ∀ k, k ≠ d →
                    (computeStateF cfg (f + 1) d sys).2.store.cache k =
                      sysB.store.cache k ∧
                    (computeStateF cfg (f + 1) d sys).2.store.deps k =
                      sysB.store.deps k := by
                  intro k hk
                  constructor
                  · simp only [computeStateF, hr, if_neg hd, hp, hrec, hrets,
                      hlast, StateStore.put]
                    simp [hk]
                  · simp only [computeStateF, hr, if_neg hd, hp, hrec, hrets,
                      hlast, StateStore.put]
                    simp [hk]
                -- name the post-state and run the second call on it
                rw [hfirst] at h1
                generalize hY : (computeStateF cfg (f + 1) d sys).2 = Y
                  at hc2 hYmd hYloc ⊢
                cases hv2 : Y.store.is_valid Y.md.updatedDates d with
                | true =>
                  have hget2 := StateStore.get_valid Y.store
                    Y.md.updatedDates d s hc2 hv2
                  simp only [computeStateF, hget2]
                | false =>
                  have hget2 := StateStore.get_invalid Y.store
                    Y.md.updatedDates d s hc2 hv2
                  have hstore : Y.store.erase d = sysB.store := by
                    refine StateStore.eq_of_pointwise _ _ (fun k => ?_)
                      (fun k => ?_)
                    · by_cases hk : k = d
                      · subst hk
                        simp [StateStore.erase, hBd.1]
                      · have := (hYloc k hk).1
                        simp [StateStore.erase, hk, this]
                    · by_cases hk : k = d
                      · subst hk
                        simp [StateStore.erase, hBd.2]
                      · have := (hYloc k hk).2
                        simp [StateStore.erase, hk, this]
                  have hXB : ({ md := Y.md, store := Y.store.erase d } : Sys)
                      = sysB :=
                    Sys.eq_of_parts _ _ hYmd hstore
                  -- re-run of the predecessor from sysB yields the same value
                  have hidem := ih p { sys with store := store₁ } sp hwf1
                    (by rw [hrec])
                  rw [hrec] at hidem
                  rcases hrecB : computeStateF cfg f p sysB with ⟨resB, sysC⟩
                  rw [hrecB] at hidem
                  cases resB with
                  | error e3 => exact Except.noConfusion hidem
                  | ok spB =>
                    have hspB : spB = sp := by simpa using hidem
                    subst hspB
                    have hmdC : sysC.md = sysB.md := by
                      have hx := computeStateF_md cfg f p sysB
                      rw [hrecB] at hx
                      exact hx
                    have hretsC : computeReturns sysC.md d p cfg.basket =
                        .ok rets := by
                      rw [hmdC]
                      exact hrets
                    have hred2 : (computeStateF cfg (f + 1) d Y).1 =
                        .ok ({ returns := rets,
                               portfolio_return := portfolioReturn spB.weights rets,
                               index_level := spB.index_level *
                                 (1 + portfolioReturn spB.weights rets),
                               weights := if isL = true then equalWeights cfg
                                 else driftWeights cfg spB.weights rets
                                   (portfolioReturn spB.weights rets) }) := by
                      simp only [computeStateF, hget2, if_neg hd, hp, hXB,
                        hrecB, hretsC, hlast]
                    rw [hred2]
                    exact h1

/-- C8: two successive compute(K) calls with no intervening external-data
change return identical Results: if the first call succeeds, re-running
compute(K) on the post-state returns the very same value. -/
theorem C8_idempotence (cfg : EqualWeightStrategy) (K : Nat) (sys : Sys)
    (hwf : sys.store.WF)
    (h1 : (compute_state cfg K sys).1.isOk = true) :
    (compute_state cfg K (compute_state cfg K sys).2).1 =
      (compute_state cfg K sys).1 := by
  rcases hv : (compute_state cfg K sys).1 with e | s
  · rw [hv] at h1
    simp [Except.isOk, Except.toBool] at h1
  · unfold compute_state at hv ⊢
    rw [computeStateF_idem cfg (K + 1) K sys s hwf hv]

/-- Witness for C8: computing date 102 twice on the fresh system. -/
theorem C8_witness :
    (compute_state cfg0 102 (compute_state cfg0 102 sys0).2).1 =
      (compute_state cfg0 102 sys0).1 :=
  C8_idempotence cfg0 102 sys0 (fun _ _ => rfl) (by decide)

/-- A successful run of the range fold visits exactly the requested dates,
in order, and every recorded value came out of a compute_state call. -/
theorem getStatesGo_ok_keys (cfg : EqualWeightStrategy) :
    ∀ (dates : List Nat) (sys : Sys) (m : List (Nat × EqualWeightStrategyState)),
      (getStatesGo cfg dates sys).1 = .ok m →
      m.map Prod.fst = dates ∧
      ∀ q ∈ m, ∃ sysA sysB, compute_state cfg q.1 sysA = (.ok q.2, sysB) := by
  intro dates
  induction dates with
  | nil =>
    intro sys m h
    simp only [getStatesGo] at h
    have hm : ([] : List (Nat × EqualWeightStrategyState)) = m := by
      simpa using h
    subst hm
    exact ⟨rfl, by simp⟩
  | cons d rest ih =>
    intro sys m h
    rcases hc : compute_state cfg d sys with ⟨res, sys₁⟩
    cases res with
    | error e =>
      have hred : (getStatesGo cfg (d :: rest) sys).1 = .error e := by
        simp only [getStatesGo, hc]
      rw [hred] at h
      exact Except.noConfusion h
    | ok s =>
      rcases hg : getStatesGo cfg rest sys₁ with ⟨resR, sys₂⟩
      cases resR with
      | error e =>
        have hred : (getStatesGo cfg (d :: rest) sys).1 = .error e := by
          simp only [getStatesGo, hc, hg]
        rw [hred] at h
        exact Except.noConfusion h
      | ok mR =>
        have hred : (getStatesGo cfg (d :: rest) sys).1 = .ok ((d, s) :: mR) := by
          simp only [getStatesGo, hc, hg]
        rw [hred] at h
        have hm : (d, s) :: mR = m := by simpa using h
        subst hm
        obtain ⟨hkeys, hvals⟩ := ih sys₁ mR (by rw [hg])
        refine ⟨by simp [hkeys], ?_⟩
        intro q hq
        rcases List.mem_cons.mp hq with hq1 | hq2
        · subst hq1
          exact ⟨sys, sys₁, hc⟩
        · exact hvals q hq2

/-- C9: when get_states(strategy, from, to) succeeds, its keys are exactly
the calendar dates in the inclusive range (the start defaulting to the seed
date when absent, per resolve_dates), listed in ascending order, and every
key is mapped to the Result of a compute call for it; a compute failure
anywhere in the range makes the whole request return the error, so no
mapping is produced (the success hypothesis is exactly the absence of such
a failure). -/
theorem C9_computeRange (cfg : EqualWeightStrategy) (fromD : Option Nat)
    (toD : Nat) (sys : Sys) (m : List (Nat × EqualWeightStrategyState))
    (hcal : List.Sorted (· < ·) cfg.calendar)
    (hok : (get_states cfg fromD toD sys).1 = .ok m) :
    m.map Prod.fst = resolve_dates cfg fromD toD ∧
    List.Sorted (· < ·) (m.map Prod.fst) ∧
    (∀ q ∈ m, ∃ sysA sysB, compute_state cfg q.1 sysA = (.ok q.2, sysB)) := by
  obtain ⟨hkeys, hvals⟩ :=
    getStatesGo_ok_keys cfg (resolve_dates cfg fromD toD) sys m hok
  refine ⟨hkeys, ?_, hvals⟩
  rw [hkeys]
  unfold resolve_dates subSchedule
  exact hcal.filter _

/-- Witness for C9: the range request over cfg0 from the default start to
date 102 returns exactly the calendar dates 101 and 102. -/
theorem C9_witness : w9m.map Prod.fst = resolve_dates cfg0 none 102 :=
  (C9_computeRange cfg0 none 102 sys0 w9m (by decide) rfl).1

end IndexEngine
